import Mathlib

/-!
Verification of `debug_csv_search.py`: a diagnostic harness that loads an
employee roster CSV, groups rows by department, builds one text document per
department, splits the documents into bounded chunks and exercises a vector
store with probe queries.  The loader, document builder and orchestration are
embedded from the source; the text splitter is an external library call and is
modelled from the specification (§4.3).
-/

namespace CsvSearch

/-- Constant `CHUNK_SIZE` from the source (line 18). -/
def CHUNK_SIZE : Nat := 500

/-- Constant `CHUNK_OVERLAP` from the source (line 19). -/
def CHUNK_OVERLAP : Nat := 50

/-- Constant `RETRIEVER_SEARCH_K` from the source (line 20). -/
def RETRIEVER_SEARCH_K : Nat := 5

/-- The fixed CSV path `os.path.join(DATA_DIR_PATH, "社員について", "社員名簿.csv")`. -/
def csvPath : String := "./data/社員について/社員名簿.csv"

/-- One CSV row as produced by `csv.DictReader`: a finite map from field name
to string value, embedded as an association list with unique keys. -/
abbrev Row : Type := List (String × String)

/-- Python `row.get(k, d)`: the value at key `k`, or the default `d` when the
key is absent. -/
def rowGet (r : Row) (k d : String) : String := (List.lookup k r).getD d

/-- The grouping key of a row: `row.get('部署', '不明')` (source line 41). -/
def rowDept (r : Row) : String := rowGet r "部署" "不明"

/-- One iteration of the grouping loop (source lines 40-44): if the row's
department is not yet a key of `dept_groups`, a fresh empty bucket is inserted
at the end (Python dicts preserve insertion order); then the row is appended
to its department's bucket. -/
def addRow (groups : List (String × List Row)) (r : Row) :
    List (String × List Row) :=
  let dept := rowDept r
  if dept ∈ groups.map Prod.fst then
    groups.map (fun g => if g.1 = dept then (g.1, g.2 ++ [r]) else g)
  else
    groups ++ [(dept, [r])]

/-- The grouping loop over all rows (source lines 39-44): `dept_groups`. -/
def groupRows (rows : List Row) : List (String × List Row) :=
  rows.foldl addRow []

/-- The per-employee line `emp_info` (source lines 55-65): a fixed-order
concatenation of nine fields, each rendered as `label: value`, joined by
comma-space, with the age value suffixed by `歳`. -/
def empLine (emp : Row) : String :=
  "社員ID: " ++ rowGet emp "社員ID" "" ++ ", " ++
  "氏名: " ++ rowGet emp "氏名(フルネーム)" "" ++ ", " ++
  "性別: " ++ rowGet emp "性別" "" ++ ", " ++
  "年齢: " ++ rowGet emp "年齢" "" ++ "歳, " ++
  "従業員区分: " ++ rowGet emp "従業員区分" "" ++ ", " ++
  "部署: " ++ rowGet emp "部署" "" ++ ", " ++
  "役職: " ++ rowGet emp "役職" "" ++ ", " ++
  "スキルセット: " ++ rowGet emp "スキルセット" "" ++ ", " ++
  "保有資格: " ++ rowGet emp "保有資格" ""

/-- The page content of one department's document (source lines 53-68):
`content_lines` starts with the header element `f"【{dept}の従業員一覧】\n"`
(note the trailing newline inside the element), one `emp_info` line is
appended per employee, and the list is joined with `"\n"`. -/
def deptContent (dept : String) (emps : List Row) : String :=
  String.intercalate "\n" (("【" ++ dept ++ "の従業員一覧】\n") :: emps.map empLine)

/-- The metadata attached to a document (source line 69):
`{"source": csv_path, "department": dept}`. -/
structure DocMetadata where
  source : String
  department : String
deriving DecidableEq, Repr

/-- A langchain `Document`: page content plus metadata. -/
structure Document where
  page_content : String
  metadata : DocMetadata
deriving DecidableEq, Repr

/-- The document-building loop (source lines 51-70): one document per bucket,
in bucket order. -/
def buildDocs (groups : List (String × List Row)) : List Document :=
  groups.map (fun g => ⟨deptContent g.1 g.2, ⟨csvPath, g.1⟩⟩)

/-- The return value of `load_employee_csv` (source lines 22-80).  The file
system is abstracted as `Option (List Row)`: `none` models a missing CSV file
(the `os.path.exists` check on line 26 fails and `[]` is returned), and
`some rows` models an existing file whose parsed rows are `rows`. -/
def load_employee_csv (src : Option (List Row)) : List Document :=
  match src with
  | none => []
  | some rows => buildDocs (groupRows rows)

/-! ### Chunker

The text splitter used on source lines 87-92 is langchain's
`CharacterTextSplitter(separator="\n", chunk_size=CHUNK_SIZE,
chunk_overlap=CHUNK_OVERLAP)`; its implementation is an external library and
is not part of this repository.  It is modelled below from the
specification's Chunker contract (§4.3). -/

/-- Split a character sequence at every newline; the separators are dropped
and empty pieces are kept, so the result always has at least one piece. -/
def splitLinesCore : List Char → List (List Char)
  | [] => [[]]
  | c :: rest =>
    if c = '\n' then [] :: splitLinesCore rest
    else
      match splitLinesCore rest with
      | [] => [[c]]
      | l :: ls => (c :: l) :: ls

/-- Join character sequences with a newline between consecutive pieces;
inverse of `splitLinesCore`. -/
def joinNl : List (List Char) → List Char
  | [] => []
  | [l] => l
  | l :: ls => l ++ '\n' :: joinNl ls

/-- Fuelled worker for `chunksOf`: cut the sequence into pieces of `n`
characters until the remainder fits. -/
def chunksOfAux (n : Nat) : Nat → List Char → List (List Char)
  | 0, cs => [cs]
  | fuel + 1, cs =>
    if cs.length ≤ n then [cs]
    else cs.take n :: chunksOfAux n fuel (cs.drop n)

/-- Modelled from the spec: a single line longer than `CHUNK_SIZE` "is
hard-split at the character limit" (§4.3); a line that fits is kept whole. -/
def chunksOf (n : Nat) (cs : List Char) : List (List Char) :=
  chunksOfAux n cs.length cs

/-- The trailing `n` characters of a sequence. -/
def takeLast (n : Nat) (cs : List Char) : List Char := cs.drop (cs.length - n)

/-- Modelled from the spec: the greedy packing loop of the Chunker (§4.3).
Lines are packed into the current segment while the joined length stays
within `n`; at a boundary the current segment is emitted and the next one is
started from the trailing `ov` characters of the previous segment, or from
the line alone when even that would not fit. -/
def packLoop (n ov : Nat) : List (List Char) → Option (List Char) → List (List Char)
  | [], none => []
  | [], some cur => [cur]
  | l :: ls, none => packLoop n ov ls (some l)
  | l :: ls, some cur =>
    let joined := cur ++ '\n' :: l
    if joined.length ≤ n then
      packLoop n ov ls (some joined)
    else
      let cand := takeLast ov cur ++ '\n' :: l
      cur :: packLoop n ov ls (some (if cand.length ≤ n then cand else l))

/-- Modelled from the spec: the Chunker's `split_text` over one page content
(§4.3): split on the newline separator, hard-split oversized lines at the
character limit, then greedily pack lines into segments of at most `n`
characters with `ov` characters of overlap at segment boundaries. -/
def split_text (n ov : Nat) (text : String) : List String :=
  let pieces := ((splitLinesCore text.data).map (chunksOf n)).flatten
  (packLoop n ov pieces none).map (fun cs => ⟨cs⟩)

/-- Modelled from the spec: `text_splitter.split_documents(docs)` — each
document's page content is split into segments and every segment carries an
unchanged copy of its parent document's metadata (§3, Segment). -/
def split_documents (n ov : Nat) (docs : List Document) : List Document :=
  (docs.map (fun d =>
    (split_text n ov d.page_content).map (fun t => ⟨t, d.metadata⟩))).flatten

/-- The probe query list of `main` (source lines 146-151). -/
def test_queries : List String :=
  ["人事部に所属している従業員", "人事部", "営業部の社員", "IT部のスタッフ"]

/-- Observable outcome of one run of `main` (source lines 130-158):
which diagnostics were printed, whether the early-return branch on empty
`docs` was taken, whether `create_vector_store` was reached, and how many
`test_search` calls were made. -/
structure RunTrace where
  notFoundReported : Bool
  docs : List Document
  abortedNoDocs : Bool
  vectorStoreBuilt : Bool
  queriesAttempted : Nat
deriving DecidableEq, Repr

/-- The orchestration in `main` (source lines 130-158): load the documents;
if the list is empty, print the failure diagnostic and return (lines 138-140)
without building the vector store or querying; otherwise build the store and
run every probe query. -/
def main (src : Option (List Row)) : RunTrace :=
  let docs := load_employee_csv src
  if docs.isEmpty then
    { notFoundReported := src.isNone, docs := docs, abortedNoDocs := true,
      vectorStoreBuilt := false, queriesAttempted := 0 }
  else
    { notFoundReported := src.isNone, docs := docs, abortedNoDocs := false,
      vectorStoreBuilt := true, queriesAttempted := test_queries.length }

/-! ### Characterisations used by the theorems -/

/-- The lines of a string: its character data split at every newline. -/
def linesOf (s : String) : List String :=
  (splitLinesCore s.data).map (fun cs => ⟨cs⟩)

/-- First-occurrence deduplication: keeps the first occurrence of every
element, in order of first occurrence. -/
def firstDedup : List String → List String
  | [] => []
  | x :: xs => x :: (firstDedup xs).filter (· != x)

/-- Closed form of the grouping loop: one bucket per distinct department in
first-occurrence order, each bucket holding the rows of that department in
source row order. -/
def canonicalGroups (rows : List Row) : List (String × List Row) :=
  (firstDedup (rows.map rowDept)).map
    (fun k => (k, rows.filter (fun x => rowDept x == k)))

/-- The page content shape asserted by the claim for C2: a single header
line identifying the group key, then exactly one line per record, all
newline-joined (no blank line after the header). -/
def deptContentClaimed (dept : String) (emps : List Row) : String :=
  String.intercalate "\n" (("【" ++ dept ++ "の従業員一覧】") :: emps.map empLine)

/-! ### Grouping lemmas -/

lemma mem_firstDedup (a : String) (xs : List String) :
    a ∈ firstDedup xs ↔ a ∈ xs := by
  induction xs with
  | nil => simp [firstDedup]
  | cons x xs ih =>
    simp only [firstDedup, List.mem_cons, List.mem_filter, bne_iff_ne, ih]
    by_cases hax : a = x
    · simp [hax]
    · simp [hax]

lemma nodup_firstDedup : ∀ xs : List String, (firstDedup xs).Nodup
  | [] => by simp [firstDedup]
  | x :: xs => by
    simp only [firstDedup, List.nodup_cons]
    refine ⟨fun hx => ?_, (nodup_firstDedup xs).filter _⟩
    rw [List.mem_filter] at hx
    exact absurd rfl (bne_iff_ne.mp hx.2)

lemma firstDedup_concat (xs : List String) (x : String) :
    firstDedup (xs ++ [x]) =
      if x ∈ xs then firstDedup xs else firstDedup xs ++ [x] := by
  induction xs with
  | nil => simp [firstDedup]
  | cons y ys ih =>
    by_cases hxy : x = y
    · subst hxy
      by_cases hx : x ∈ ys
      · simp [firstDedup, ih, hx]
      · simp [firstDedup, ih, hx, List.filter_append]
    · by_cases hx : x ∈ ys
      · simp [firstDedup, ih, hx, hxy]
      · simp [firstDedup, ih, hx, hxy, List.filter_append, bne_iff_ne]

lemma keys_canonical (rows : List Row) :
    (canonicalGroups rows).map Prod.fst = firstDedup (rows.map rowDept) := by
  have hcomp :
      (Prod.fst ∘ fun k : String => (k, rows.filter (fun x => rowDept x == k))) = id := rfl
  rw [canonicalGroups, List.map_map, hcomp, List.map_id]

lemma canonical_concat (rows : List Row) (r : Row) :
    addRow (canonicalGroups rows) r = canonicalGroups (rows ++ [r]) := by
  simp only [addRow]
  by_cases hd : rowDept r ∈ rows.map rowDept
  · rw [if_pos (by rw [keys_canonical, mem_firstDedup]; exact hd)]
    unfold canonicalGroups
    simp only [List.map_append, List.map_cons, List.map_nil]
    rw [firstDedup_concat, if_pos hd, List.map_map]
    apply List.map_congr_left
    intro k hk
    by_cases hkd : k = rowDept r
    · subst hkd
      simp [List.filter_append]
    · simp [Function.comp, hkd, List.filter_append, Ne.symm hkd]
  · rw [if_neg (by rw [keys_canonical, mem_firstDedup]; exact hd)]
    unfold canonicalGroups
    simp only [List.map_append, List.map_cons, List.map_nil]
    rw [firstDedup_concat, if_neg hd, List.map_append]
    congr 1
    · apply List.map_congr_left
      intro k hk
      rw [mem_firstDedup] at hk
      have hkd : rowDept r ≠ k := fun h => hd (h ▸ hk)
      simp [List.filter_append, hkd]
    · have hnil : rows.filter (fun x => rowDept x == rowDept r) = [] := by
        rw [List.filter_eq_nil_iff]
        intro a ha h
        exact hd (List.mem_map.mpr ⟨a, ha, beq_iff_eq.mp h⟩)
      simp [List.filter_append, hnil]

lemma groupRows_concat (rows : List Row) (r : Row) :
    groupRows (rows ++ [r]) = addRow (groupRows rows) r := by
  simp [groupRows, List.foldl_append]

lemma groupRows_eq (rows : List Row) : groupRows rows = canonicalGroups rows := by
  induction rows using List.reverseRecOn with
  | nil => simp [groupRows, canonicalGroups, firstDedup]
  | append_singleton rows r ih =>
    rw [groupRows_concat, ih, canonical_concat]

lemma sum_count_firstDedup : ∀ ms : List String,
    ((firstDedup ms).map (fun k => ms.count k)).sum = ms.length := by
  intro ms
  induction ms with
  | nil => simp [firstDedup]
  | cons x ms ih =>
    simp only [firstDedup, List.map_cons, List.sum_cons, List.count_cons_self]
    have hfilter :
        (((firstDedup ms).filter (· != x)).map (fun k => (x :: ms).count k)).sum =
          (((firstDedup ms).filter (· != x)).map (fun k => ms.count k)).sum := by
      congr 1
      apply List.map_congr_left
      intro k hk
      rw [List.mem_filter] at hk
      exact List.count_cons_of_ne (bne_iff_ne.mp hk.2) ms
    rw [hfilter]
    by_cases hx : x ∈ ms
    · have hmem : x ∈ firstDedup ms := (mem_firstDedup x ms).mpr hx
      have hperm :
          List.Perm (firstDedup ms) (x :: (firstDedup ms).filter (· != x)) := by
        have hpe := List.perm_cons_erase hmem
        rwa [(nodup_firstDedup ms).erase_eq_filter x] at hpe
      have hsum := (hperm.map (fun k => ms.count k)).sum_eq
      rw [List.map_cons, List.sum_cons, ih] at hsum
      rw [List.length_cons]
      omega
    · have hcount : ms.count x = 0 := List.count_eq_zero.mpr hx
      have hself : (firstDedup ms).filter (· != x) = firstDedup ms := by
        rw [List.filter_eq_self]
        intro a ha
        rw [bne_iff_ne]
        exact fun h => hx (h ▸ (mem_firstDedup a ms).mp ha)
      rw [hself, ih, hcount, List.length_cons]
      omega

/-- C1: grouping partitions the rows: every record lands in exactly one
department bucket, so the sizes of the buckets of `dept_groups` sum to the
number of rows read — no record is dropped or duplicated. -/
theorem groupRows_sum_sizes (rows : List Row) :
    ((groupRows rows).map (fun g => g.2.length)).sum = rows.length := by
  rw [groupRows_eq, canonicalGroups, List.map_map]
  have hpt : ∀ k, ((fun g : String × List Row => g.2.length) ∘
      fun k => (k, rows.filter (fun x => rowDept x == k))) k =
        (rows.map rowDept).count k := by
    intro k
    show (rows.filter (fun x => rowDept x == k)).length = _
    rw [← List.countP_eq_length_filter, List.count_eq_countP, List.countP_map]
    rfl
  rw [List.map_congr_left (fun k _ => hpt k), sum_count_firstDedup]
  exact List.length_map rows rowDept

/-- C10: the documents of one load appear in order of first occurrence of
their department among the source rows, and each document's page content is
built from exactly the rows of its department in source row order; the
document sequence is a function of the row sequence alone. -/
theorem load_docs_order (rows : List Row) :
    (load_employee_csv (some rows)).map (fun d => d.metadata.department) =
        firstDedup (rows.map rowDept) ∧
      ∀ d ∈ load_employee_csv (some rows),
        d.page_content =
          deptContent d.metadata.department
            (rows.filter (fun x => rowDept x == d.metadata.department)) := by
  constructor
  · simp only [load_employee_csv, buildDocs, groupRows_eq, canonicalGroups,
      List.map_map]
    apply List.map_congr_left (g := id) (fun k _ => rfl) |>.trans (List.map_id _)
  · intro d hd
    simp only [load_employee_csv, buildDocs, groupRows_eq, canonicalGroups,
      List.map_map, List.mem_map] at hd
    obtain ⟨k, _, rfl⟩ := hd
    rfl

/-- C10 witness: a concrete three-row load; departments appear in first
occurrence order and the first document's content is built from its
department's rows in row order. -/
theorem load_docs_order_w :
    (load_employee_csv (some [[("部署", "営業部")], [("部署", "人事部")],
        [("部署", "営業部")]])).map (fun d => d.metadata.department) =
      ["営業部", "人事部"] ∧
    (Document.mk (deptContent "営業部" [[("部署", "営業部")], [("部署", "営業部")]])
        ⟨csvPath, "営業部"⟩).page_content =
      deptContent "営業部" [[("部署", "営業部")], [("部署", "営業部")]] :=
  ⟨by have h := (load_docs_order [[("部署", "営業部")], [("部署", "人事部")],
        [("部署", "営業部")]]).1
      rw [h]; rfl,
   (load_docs_order [[("部署", "営業部")], [("部署", "人事部")],
        [("部署", "営業部")]]).2 _ (by decide)⟩

/-- C3 counterexample: a record whose 部署 field is present but holds the
empty string is assigned to a bucket keyed by the empty string — not to the
sentinel 不明 bucket as the claim states. -/
theorem emptyDept_not_unknown :
    rowDept [("部署", "")] ≠ "不明" ∧
      groupRows [[("部署", "")]] = [("", [[("部署", "")]])] := by
  exact ⟨by decide, by decide⟩

/-- C3 amended: the 不明 sentinel applies exactly when the grouping field is
absent from the row; a present value — even the empty string — is used
verbatim as the group key. -/
theorem rowDept_fallback (r : Row) :
    (List.lookup "部署" r = none → rowDept r = "不明") ∧
      ∀ v, List.lookup "部署" r = some v → rowDept r = v := by
  constructor
  · intro h; simp [rowDept, rowGet, h]
  · intro v h; simp [rowDept, rowGet, h]

/-- C3 witness: the sentinel fires on a row with no 部署 field; a present
empty value yields the empty-string key. -/
theorem rowDept_fallback_w :
    rowDept [] = "不明" ∧ rowDept [("部署", "")] = "" :=
  ⟨(rowDept_fallback []).1 rfl, (rowDept_fallback [("部署", "")]).2 "" (by decide)⟩

/-! ### Line-splitting and joining lemmas -/

lemma joinNl_glue (a b : List Char) (ls : List (List Char)) :
    joinNl ((a ++ '\n' :: b) :: ls) = a ++ '\n' :: joinNl (b :: ls) := by
  cases ls <;> simp [joinNl]

lemma joinNl_cons_head (c : Char) (l : List Char) (ls : List (List Char)) :
    joinNl ((c :: l) :: ls) = c :: joinNl (l :: ls) := by
  cases ls <;> simp [joinNl]

lemma joinNl_nil_cons (l : List Char) (ls : List (List Char)) :
    joinNl ([] :: l :: ls) = '\n' :: joinNl (l :: ls) := by
  simp [joinNl]

lemma joinNl_cons_cons (x y : List Char) (ys : List (List Char)) :
    joinNl (x :: y :: ys) = x ++ '\n' :: joinNl (y :: ys) := rfl

lemma intercalate_go_data (as : List String) (acc : String) :
    (String.intercalate.go acc "\n" as).data =
      joinNl (acc.data :: as.map String.data) := by
  induction as generalizing acc with
  | nil => simp [String.intercalate.go, joinNl]
  | cons a as ih =>
    rw [String.intercalate.go, ih]
    have hacc : (acc ++ "\n" ++ a).data = acc.data ++ '\n' :: a.data := by
      simp [String.data_append]
    rw [hacc, List.map_cons, joinNl_glue, joinNl_cons_cons]

lemma intercalate_data (l : List String) (hl : l ≠ []) :
    (String.intercalate "\n" l).data = joinNl (l.map String.data) := by
  cases l with
  | nil => exact absurd rfl hl
  | cons a as =>
    rw [String.intercalate, List.map_cons]
    exact intercalate_go_data as a

lemma splitLinesCore_ne_nil (cs : List Char) : splitLinesCore cs ≠ [] := by
  cases cs with
  | nil => simp [splitLinesCore]
  | cons c rest =>
    rw [splitLinesCore]
    split
    · simp
    · split <;> simp

lemma exists_cons_splitLinesCore (cs : List Char) :
    ∃ l ls, splitLinesCore cs = l :: ls := by
  cases hq : splitLinesCore cs with
  | nil => exact absurd hq (splitLinesCore_ne_nil cs)
  | cons l ls => exact ⟨l, ls, rfl⟩

lemma splitLinesCore_no_nl (cs : List Char) (h : '\n' ∉ cs) :
    splitLinesCore cs = [cs] := by
  induction cs with
  | nil => rfl
  | cons c rest ih =>
    rw [splitLinesCore,
      if_neg (fun hc => h (by rw [← hc]; exact List.mem_cons_self c rest)),
      ih (fun hm => h (List.mem_cons_of_mem c hm))]

lemma splitLinesCore_append_nl (a b : List Char) (ha : '\n' ∉ a) :
    splitLinesCore (a ++ '\n' :: b) = a :: splitLinesCore b := by
  induction a with
  | nil => rw [List.nil_append, splitLinesCore, if_pos rfl]
  | cons c a ih =>
    rw [List.cons_append, splitLinesCore,
      if_neg (fun hc => ha (by rw [← hc]; exact List.mem_cons_self c a)),
      ih (fun hm => ha (List.mem_cons_of_mem c hm))]

lemma splitLinesCore_joinNl (xs : List (List Char)) (hxs : xs ≠ [])
    (h : ∀ x ∈ xs, '\n' ∉ x) :
    splitLinesCore (joinNl xs) = xs := by
  induction xs with
  | nil => exact absurd rfl hxs
  | cons x xs ih =>
    cases xs with
    | nil =>
      rw [joinNl, splitLinesCore_no_nl x (h x (List.mem_cons_self x _))]
    | cons y ys =>
      rw [show joinNl (x :: y :: ys) = x ++ '\n' :: joinNl (y :: ys) from rfl,
        splitLinesCore_append_nl _ _ (h x (List.mem_cons_self x _)),
        ih (by simp) (fun z hz => h z (List.mem_cons_of_mem x hz))]

lemma joinNl_splitLinesCore (cs : List Char) : joinNl (splitLinesCore cs) = cs := by
  induction cs with
  | nil => rfl
  | cons c rest ih =>
    obtain ⟨l, ls, hsp⟩ := exists_cons_splitLinesCore rest
    rw [splitLinesCore]
    by_cases h : c = '\n'
    · rw [if_pos h, h, hsp, joinNl_nil_cons, ← hsp, ih]
    · rw [if_neg h, hsp]
      show joinNl ((c :: l) :: ls) = c :: rest
      rw [joinNl_cons_head, ← hsp, ih]

lemma length_le_joinNl (x : List Char) :
    ∀ xs, x ∈ xs → x.length ≤ (joinNl xs).length := by
  intro xs
  induction xs with
  | nil => intro h; cases h
  | cons y ys ih =>
    intro hx
    cases ys with
    | nil =>
      obtain rfl := List.mem_singleton.mp hx
      exact Nat.le_refl _
    | cons z zs =>
      rw [show joinNl (y :: z :: zs) = y ++ '\n' :: joinNl (z :: zs) from rfl]
      rcases List.mem_cons.mp hx with rfl | hx2
      · simp [List.length_append]
      · have hle := ih hx2
        rw [List.length_append, List.length_cons]
        omega

/-! ### Document builder: page content shape (C2) -/

lemma deptContent_data (dept : String) (emps : List Row) :
    (deptContent dept emps).data =
      joinNl (("【" ++ dept ++ "の従業員一覧】").data :: [] ::
        (emps.map empLine).map String.data) := by
  rw [deptContent, intercalate_data _ (by simp), List.map_cons]
  have hh : ("【" ++ dept ++ "の従業員一覧】\n").data =
      ("【" ++ dept ++ "の従業員一覧】").data ++ '\n' :: ([] : List Char) := by
    simp [String.data_append]
  rw [hh, joinNl_glue, joinNl_cons_cons]

/-- C2 counterexample: on a one-record bucket the built page content carries
an empty line between the header line and the record line (the header element
ends in a newline before the join), so it differs from the claimed
header-then-record-lines newline-join. -/
theorem deptContent_extra_blank_line :
    deptContent "営業部" [[("氏名(フルネーム)", "山田太郎")]] ≠
        deptContentClaimed "営業部" [[("氏名(フルネーム)", "山田太郎")]] ∧
      linesOf (deptContent "営業部" [[("氏名(フルネーム)", "山田太郎")]]) ≠
        ["【営業部の従業員一覧】", empLine [("氏名(フルネーム)", "山田太郎")]] := by
  exact ⟨by decide, by decide⟩

/-- C2 amended: each non-empty bucket's document content is the header line
identifying the department, then one empty line, then exactly one line per
record in source row order — each record line the fixed-order `label: value`
concatenation produced by `empLine` (age suffixed `歳`) — all newline-joined. -/
theorem deptContent_lines (dept : String) (emps : List Row)
    (hd : '\n' ∉ dept.data) (he : ∀ e ∈ emps, '\n' ∉ (empLine e).data)
    (hne : emps ≠ []) :
    linesOf (deptContent dept emps) =
      ("【" ++ dept ++ "の従業員一覧】") :: "" :: emps.map empLine := by
  rw [linesOf, deptContent_data, splitLinesCore_joinNl]
  · have ht : List.map (fun cs => (⟨cs⟩ : String))
        ((emps.map empLine).map String.data) = emps.map empLine := by
      rw [List.map_map, List.map_map]
      exact List.map_congr_left fun e _ => rfl
    rw [List.map_cons, List.map_cons, ht]
  · simp
  · intro x hx
    rcases List.mem_cons.mp hx with rfl | hx
    · intro hmem
      rw [String.data_append, String.data_append] at hmem
      rcases List.mem_append.mp hmem with hmem2 | hmem1
      · rcases List.mem_append.mp hmem2 with h1 | h2
        · exact absurd h1 (by decide)
        · exact hd h2
      · exact absurd hmem1 (by decide)
    rcases List.mem_cons.mp hx with rfl | hx
    · simp
    · rw [List.mem_map] at hx
      obtain ⟨s, hs, rfl⟩ := hx
      rw [List.mem_map] at hs
      obtain ⟨e, he2, rfl⟩ := hs
      exact he e he2

/-- C2 witness: the amended line structure on a concrete one-record bucket. -/
theorem deptContent_lines_w :
    linesOf (deptContent "営業部" [[("氏名(フルネーム)", "山田太郎")]]) =
      ["【営業部の従業員一覧】", "", empLine [("氏名(フルネーム)", "山田太郎")]] :=
  deptContent_lines "営業部" [[("氏名(フルネーム)", "山田太郎")]]
    (by decide)
    (by intro e he
        have heq : e = [("氏名(フルネーム)", "山田太郎")] := by simpa using he
        rw [heq]; decide)
    (by simp)

/-! ### Chunker lemmas -/

lemma chunksOfAux_length_le (n : Nat) (hn : 0 < n) :
    ∀ fuel cs, cs.length ≤ fuel + n →
      ∀ p ∈ chunksOfAux n fuel cs, p.length ≤ n := by
  intro fuel
  induction fuel with
  | zero =>
    intro cs hcs p hp
    rw [chunksOfAux] at hp
    obtain rfl := List.mem_singleton.mp hp
    simpa using hcs
  | succ fuel ih =>
    intro cs hcs p hp
    rw [chunksOfAux] at hp
    split at hp
    · obtain rfl := List.mem_singleton.mp hp
      assumption
    · rcases List.mem_cons.mp hp with rfl | hp2
      · simpa using Nat.min_le_left n cs.length
      · refine ih (cs.drop n) ?_ p hp2
        rw [List.length_drop]
        omega

lemma chunksOf_length_le (n : Nat) (hn : 0 < n) (cs : List Char) :
    ∀ p ∈ chunksOf n cs, p.length ≤ n :=
  chunksOfAux_length_le n hn cs.length cs (Nat.le_add_right _ _)

lemma chunksOf_of_le (n : Nat) (cs : List Char) (h : cs.length ≤ n) :
    chunksOf n cs = [cs] := by
  rw [chunksOf]
  cases hl : cs.length with
  | zero => rw [chunksOfAux]
  | succ m => rw [chunksOfAux, if_pos (hl ▸ h)]

lemma packLoop_length_le (n ov : Nat) :
    ∀ (ps : List (List Char)) (cur : Option (List Char)),
      (∀ p ∈ ps, p.length ≤ n) → (∀ c, cur = some c → c.length ≤ n) →
      ∀ out ∈ packLoop n ov ps cur, out.length ≤ n := by
  intro ps
  induction ps with
  | nil =>
    intro cur hps hcur out hout
    cases cur with
    | none => cases hout
    | some c =>
      obtain rfl := List.mem_singleton.mp hout
      exact hcur out rfl
  | cons l ls ih =>
    intro cur hps hcur out hout
    have hl : l.length ≤ n := hps l (List.mem_cons_self l ls)
    have hls : ∀ p ∈ ls, p.length ≤ n := fun p hp => hps p (List.mem_cons_of_mem l hp)
    cases cur with
    | none =>
      rw [packLoop] at hout
      exact ih (some l) hls (fun c hc => by injection hc with h; exact h ▸ hl) out hout
    | some c =>
      have hc : c.length ≤ n := hcur c rfl
      rw [packLoop] at hout
      split at hout
      · exact ih _ hls (fun d hd => by injection hd with h; subst h; assumption) out hout
      · rcases List.mem_cons.mp hout with rfl | hout2
        · exact hc
        · refine ih _ hls (fun d hd => ?_) out hout2
          injection hd with h
          subst h
          split
          · assumption
          · exact hl

/-- C4: every segment produced by the modelled Chunker from an oversized
page content has length at most `CHUNK_SIZE`; a single line longer than
`CHUNK_SIZE` is hard-split at the character limit instead of surviving as an
oversized segment. -/
theorem split_text_length_le (text : String)
    (htext : CHUNK_SIZE < text.length) :
    ∀ s ∈ split_text CHUNK_SIZE CHUNK_OVERLAP text, s.length ≤ CHUNK_SIZE := by
  intro s hs
  rw [split_text] at hs
  rw [List.mem_map] at hs
  obtain ⟨cs, hcs, rfl⟩ := hs
  have hpieces : ∀ p ∈ ((splitLinesCore text.data).map (chunksOf CHUNK_SIZE)).flatten,
      p.length ≤ CHUNK_SIZE := by
    intro p hp
    rw [List.mem_flatten] at hp
    obtain ⟨chunks, hchunks, hpin⟩ := hp
    rw [List.mem_map] at hchunks
    obtain ⟨line, _, rfl⟩ := hchunks
    exact chunksOf_length_le CHUNK_SIZE (by decide) line p hpin
  exact packLoop_length_le CHUNK_SIZE CHUNK_OVERLAP _ none hpieces
    (fun c hc => by cases hc) cs hcs

set_option maxRecDepth 100000 in
/-- C4 witness: a 501-character single-line content; the hard split yields
segments within the limit. -/
theorem split_text_length_le_w :
    CHUNK_SIZE < (String.mk (List.replicate 501 'a')).length ∧
      (String.mk (List.replicate 500 'a')) ∈
        split_text CHUNK_SIZE CHUNK_OVERLAP (String.mk (List.replicate 501 'a')) ∧
      (String.mk (List.replicate 500 'a')).length ≤ CHUNK_SIZE :=
  ⟨by decide, by decide,
    split_text_length_le (String.mk (List.replicate 501 'a')) (by decide)
      (String.mk (List.replicate 500 'a')) (by decide)⟩

lemma packLoop_all (n ov : Nat) :
    ∀ (ls : List (List Char)) (cur : List Char),
      (joinNl (cur :: ls)).length ≤ n →
      packLoop n ov ls (some cur) = [joinNl (cur :: ls)] := by
  intro ls
  induction ls with
  | nil => intro cur h; rfl
  | cons l ls ih =>
    intro cur h
    rw [joinNl_cons_cons] at h
    have hfit : (cur ++ '\n' :: l).length ≤ n := by
      have hj : l.length ≤ (joinNl (l :: ls)).length :=
        length_le_joinNl l (l :: ls) (List.mem_cons_self l ls)
      rw [List.length_append, List.length_cons] at h ⊢
      omega
    rw [packLoop, if_pos hfit, ih (cur ++ '\n' :: l) (by rw [joinNl_glue]; exact h),
      joinNl_glue, ← joinNl_cons_cons]

lemma flatten_map_singleton (l : List (List Char)) :
    (l.map (fun x => [x])).flatten = l := by
  induction l with
  | nil => rfl
  | cons x xs ih => simp [ih]

lemma split_text_small (text : String) (h : text.length ≤ CHUNK_SIZE) :
    split_text CHUNK_SIZE CHUNK_OVERLAP text = [text] := by
  rw [split_text]
  obtain ⟨l, ls, hsp⟩ := exists_cons_splitLinesCore text.data
  have hlen : text.data.length ≤ CHUNK_SIZE := h
  have hlines : ∀ x ∈ splitLinesCore text.data, x.length ≤ CHUNK_SIZE := by
    intro x hx
    have hle := length_le_joinNl x _ hx
    rw [joinNl_splitLinesCore] at hle
    exact Nat.le_trans hle hlen
  have hflat : ((splitLinesCore text.data).map (chunksOf CHUNK_SIZE)).flatten =
      splitLinesCore text.data := by
    have hmap : (splitLinesCore text.data).map (chunksOf CHUNK_SIZE) =
        (splitLinesCore text.data).map (fun x => [x]) :=
      List.map_congr_left fun x hx => chunksOf_of_le _ x (hlines x hx)
    rw [hmap, flatten_map_singleton]
  have hjoin : joinNl (l :: ls) = text.data := by
    rw [← hsp, joinNl_splitLinesCore]
  rw [hflat, hsp, packLoop,
    packLoop_all CHUNK_SIZE CHUNK_OVERLAP ls l (by rw [hjoin]; exact hlen), hjoin]
  rfl

/-- C5: a page content that fits inside `CHUNK_SIZE` passes through the
modelled Chunker as a single segment equal to the whole document, metadata
included. -/
theorem split_documents_small (d : Document)
    (h : d.page_content.length ≤ CHUNK_SIZE) :
    split_documents CHUNK_SIZE CHUNK_OVERLAP [d] = [d] := by
  simp [split_documents, split_text_small d.page_content h]

/-- C5 witness: a concrete two-line document below the size bound survives
chunking as exactly itself. -/
theorem split_documents_small_w :
    (Document.mk "a\nb" ⟨csvPath, "営業部"⟩).page_content.length ≤ CHUNK_SIZE ∧
      split_documents CHUNK_SIZE CHUNK_OVERLAP [Document.mk "a\nb" ⟨csvPath, "営業部"⟩] =
        [Document.mk "a\nb" ⟨csvPath, "営業部"⟩] :=
  ⟨by decide, split_documents_small (Document.mk "a\nb" ⟨csvPath, "営業部"⟩) (by decide)⟩

/-- C6: every segment the modelled Chunker produces from a document carries
metadata equal to its parent document's metadata (source path and department
both preserved); chunking leaves the metadata mapping unchanged. -/
theorem split_documents_metadata (n ov : Nat) (d : Document) :
    ∀ s ∈ split_documents n ov [d], s.metadata = d.metadata := by
  intro s hs
  simp only [split_documents, List.map_cons, List.map_nil, List.flatten_cons,
    List.flatten_nil, List.append_nil, List.mem_map] at hs
  obtain ⟨t, _, rfl⟩ := hs
  rfl

/-- C6 witness: a concrete segment of a concrete document carries the
parent's metadata. -/
theorem split_documents_metadata_w :
    (Document.mk "a\nb" ⟨csvPath, "人事部"⟩) ∈
        split_documents CHUNK_SIZE CHUNK_OVERLAP [Document.mk "a\nb" ⟨csvPath, "人事部"⟩] ∧
      (Document.mk "a\nb" ⟨csvPath, "人事部"⟩).metadata = DocMetadata.mk csvPath "人事部" :=
  ⟨by decide,
    split_documents_metadata CHUNK_SIZE CHUNK_OVERLAP
      (Document.mk "a\nb" ⟨csvPath, "人事部"⟩)
      (Document.mk "a\nb" ⟨csvPath, "人事部"⟩) (by decide)⟩

/-! ### Pipeline orchestration (C7, C8, C9) -/

/-- C7: on a source that exists but has zero rows, the loader returns an
empty document list (not an error) and the run aborts with the empty-corpus
diagnostic before the vector store is built and before any query runs. -/
theorem empty_source_aborts :
    load_employee_csv (some []) = [] ∧
      main (some []) =
        { notFoundReported := false, docs := [], abortedNoDocs := true,
          vectorStoreBuilt := false, queriesAttempted := 0 } :=
  ⟨rfl, rfl⟩

/-- C8: on a missing source file, `load_employee_csv` reports the
file-not-found condition and returns with no documents, and the run stops
before the vector store is built and before any query is attempted. -/
theorem missing_source_aborts :
    load_employee_csv none = [] ∧
      (main none).notFoundReported = true ∧
      (main none).vectorStoreBuilt = false ∧
      (main none).queriesAttempted = 0 :=
  ⟨rfl, rfl, rfl, rfl⟩

/-- C9: the loader's return value is the identical empty list for a missing
source and for an existing zero-row source, so the caller cannot tell the
two conditions apart from the return value, and both runs take the same
no-documents abort branch: no store build, no queries. -/
theorem loader_conflates_missing_and_empty :
    load_employee_csv none = load_employee_csv (some []) ∧
      load_employee_csv none = [] ∧
      (main none).abortedNoDocs = true ∧
      (main (some [])).abortedNoDocs = true ∧
      (main none).vectorStoreBuilt = (main (some [])).vectorStoreBuilt ∧
      (main none).queriesAttempted = (main (some [])).queriesAttempted :=
  ⟨rfl, rfl, rfl, rfl, rfl, rfl⟩

end CsvSearch
